import Mathlib

/-!
Shallow embedding of `src/CircularBuffer.h` (template class `CircularBuffer<Unit>`).

The C++ class stores `int` fields `m_unit_count` (capacity), `m_buffer_head`,
`m_buffer_tail`, `m_used_slots`, and a heap array `m_buffer` of `m_unit_count`
elements of type `Unit`.  C++ `int` is modelled by `Int` (no arithmetic in the
modelled paths can overflow a 32-bit int for the capacities the class supports,
and all comparisons are ordinary signed comparisons).  The storage array is
modelled as a total function `Int → U` from element indices to stored values;
`memcpy` into the array becomes `writeList`, `memcpy` out of it becomes
`readList`.

The model is the `m_unit_size = 1` instantiation (`Unit = uint8_t`, the one
instantiated by `src/main.cpp`), so the element offset `m_buffer_head *
m_unit_size` computed by `get_buffer_head` is the element index
`m_buffer_head` itself.  The index arithmetic of `get_buffer_head` /
`get_buffer_tail` for a general `m_unit_size` is modelled separately by
`get_buffer_head_index` below.

The mutex `m_buffer_lock` only serialises calls and has no effect on the
sequential semantics modelled here, so it is omitted.
-/

namespace CircularBufferModel

/-- State of a `CircularBuffer<U>` object: the four `int` bookkeeping fields of
the C++ class plus the backing storage, read as a function from element index
to stored unit.  (`Unit` is renamed to `U` because `Unit` is a builtin Lean
type.) -/
structure CB (U : Type) where
  m_unit_count : Int
  m_buffer_head : Int
  m_buffer_tail : Int
  m_used_slots : Int
  m_buffer : Int → U

/-- Overwrite the storage with the elements of `ds` starting at element index
`p`: the model of `::memcpy(buffer + p, ds, ds.length * unit_size)`. -/
def writeList {U : Type} (buf : Int → U) (p : Int) : List U → (Int → U)
  | [] => buf
  | d :: ds => writeList (fun i => if i = p then d else buf i) (p + 1) ds

/-- Read `n` consecutive elements of the storage starting at element index `p`:
the model of `::memcpy(out, buffer + p, n * unit_size)`. -/
def readList {U : Type} (buf : Int → U) (p : Int) : Nat → List U
  | 0 => []
  | n + 1 => buf p :: readList buf (p + 1) n

/-- The constructor `CircularBuffer(int unit_count)`: member initialisers set
`m_used_slots = 0`, `reset()` sets the cursors to 0.  The freshly allocated
`new Unit[unit_count]` array holds indeterminate values, modelled by an
arbitrary initial storage function `buf`. -/
def mkCB {U : Type} (unit_count : Int) (buf : Int → U) : CB U :=
  { m_unit_count := unit_count
    m_buffer_head := 0
    m_buffer_tail := 0
    m_used_slots := 0
    m_buffer := buf }

/-- The member function `reset()`: sets `m_buffer_head = 0` and
`m_buffer_tail = 0`.  It does not touch `m_used_slots`. -/
def reset {U : Type} (cb : CB U) : CB U :=
  { cb with m_buffer_head := 0, m_buffer_tail := 0 }

/-- The member function `used_space()`: returns `m_used_slots`. -/
def used_space {U : Type} (cb : CB U) : Int :=
  cb.m_used_slots

/-- The member function `free_space()`: returns `m_unit_count - m_used_slots`. -/
def free_space {U : Type} (cb : CB U) : Int :=
  cb.m_unit_count - cb.m_used_slots

/-- The member function `bool insert_units(const Unit* data, int unit_count)`,
with the `(data, unit_count)` input pair modelled as the list `data` of the
`unit_count` units the call reads (`unit_count = data.length`).  Returns the
`bool` result together with the state after the call; every `return false`
path in the source returns before any mutation, so those paths return the
input state.  Branch structure follows the enabled (`#if 1`) data-mapping code
of the source line by line. -/
def insert_units {U : Type} (cb : CB U) (data : List U) : Bool × CB U :=
  let unit_count : Int := data.length
  if cb.m_unit_count = 0 then
    (false, cb)
  else
    let fs := cb.m_unit_count - cb.m_used_slots
    if fs < unit_count then
      (false, cb)
    else
      if cb.m_buffer_head < cb.m_buffer_tail then
        -- how much space is available from head to the tail?
        let left_in_buffer := cb.m_buffer_tail - cb.m_buffer_head
        if left_in_buffer < unit_count then
          (false, cb) -- not enough; we've collided with the tail
        else
          (true, { cb with
            m_buffer := writeList cb.m_buffer cb.m_buffer_head data
            m_used_slots := cb.m_used_slots + unit_count
            m_buffer_head := cb.m_buffer_head + unit_count })
      else
        -- how much space is available from head to the end of the buffer...or the tail?
        let left_in_buffer := cb.m_unit_count - cb.m_buffer_head
        if left_in_buffer ≥ unit_count then
          (true, { cb with
            m_buffer := writeList cb.m_buffer cb.m_buffer_head data
            m_used_slots := cb.m_used_slots + unit_count
            m_buffer_head := cb.m_buffer_head + unit_count })
        else
          if left_in_buffer + (cb.m_buffer_tail - 1) < unit_count then
            (false, cb) -- won't fit; we've collided with the tail
          else
            -- copy the first segment to the end of storage, wrap the head
            -- to 0, then copy the remainder
            let data2 := data.drop left_in_buffer.toNat
            (true, { cb with
              m_buffer := writeList
                (writeList cb.m_buffer cb.m_buffer_head (data.take left_in_buffer.toNat))
                0 data2
              m_used_slots := cb.m_used_slots + unit_count
              m_buffer_head := (data2.length : Int) })

/-- The member function `bool extract_units(Unit* data, int unit_count)`.
Returns the `bool` result, the list of units the call copied into `data`
(empty on the failure paths, which write nothing), and the state after the
call.  Branch structure follows the enabled (`#if 1`) data-mapping code of the
source line by line. -/
def extract_units {U : Type} (cb : CB U) (unit_count : Int) : Bool × List U × CB U :=
  if cb.m_unit_count = 0 then
    (false, [], cb)
  else if cb.m_used_slots < unit_count then
    (false, [], cb)
  else
    if cb.m_buffer_head < cb.m_buffer_tail then
      -- how much data is available from here to the end of the buffer?
      let data_count := cb.m_unit_count - cb.m_buffer_tail
      if data_count < unit_count then
        -- copy the segment up to the end of storage, wrap the tail to 0,
        -- then copy the remainder
        let rest := unit_count - data_count
        (true,
         readList cb.m_buffer cb.m_buffer_tail data_count.toNat ++
           readList cb.m_buffer 0 rest.toNat,
         { cb with
           m_used_slots := cb.m_used_slots - unit_count
           m_buffer_tail := rest })
      else
        (true, readList cb.m_buffer cb.m_buffer_tail unit_count.toNat,
         { cb with
           m_used_slots := cb.m_used_slots - unit_count
           m_buffer_tail := cb.m_buffer_tail + unit_count })
    else
      -- how much data is available from here to the end of the buffer?
      let data_count := cb.m_buffer_head - cb.m_buffer_tail
      if data_count < unit_count then
        (false, [], cb) -- shouldn't happen here
      else
        (true, readList cb.m_buffer cb.m_buffer_tail unit_count.toNat,
         { cb with
           m_used_slots := cb.m_used_slots - unit_count
           m_buffer_tail := cb.m_buffer_tail + unit_count })

/-- The member function `transfer(const CircularBuffer& source)`, called by the
copy constructor and by `operator=` on the destination `dest`.  For a
same-`Unit` transfer the `assert` (`source.m_unit_size == m_unit_size || ...`)
always passes and is not modelled.  Note the destination's `m_unit_count` is
never written. -/
def transfer {U : Type} (dest source : CB U) : CB U :=
  if source.m_buffer_head ≠ source.m_buffer_tail then
    if source.m_buffer_head > source.m_buffer_tail then
      -- the easy way (linear copy)
      { dest with
        m_buffer := writeList dest.m_buffer 0
          (readList source.m_buffer source.m_buffer_tail source.m_used_slots.toNat)
        m_buffer_tail := 0
        m_buffer_head := source.m_used_slots
        m_used_slots := source.m_used_slots }
    else
      -- a little trickier (double copy)
      let unit_count := source.m_unit_count - source.m_buffer_tail
      { dest with
        m_buffer := writeList
          (writeList dest.m_buffer 0
            (readList source.m_buffer source.m_buffer_tail unit_count.toNat))
          unit_count
          (readList source.m_buffer 0 source.m_buffer_head.toNat)
        m_buffer_tail := 0
        m_buffer_head := source.m_used_slots
        m_used_slots := source.m_used_slots }
  else
    dest

/-- Element index denoted by the pointer returned by `get_buffer_head()` for a
general unit size: the source computes `offset = m_buffer_head * m_unit_size`
and returns `m_buffer.get() + offset`, and since `m_buffer.get()` has type
`Unit*`, the pointer addresses element index `m_buffer_head * m_unit_size` of
the storage array.  (`get_buffer_tail` is identical with `m_buffer_tail`.) -/
def get_buffer_head_index (m_buffer_head m_unit_size : Int) : Int :=
  m_buffer_head * m_unit_size

/-- The logical content of the buffer: the `m_used_slots` occupied units read
from the storage circularly starting at `m_buffer_tail`. -/
def contents {U : Type} (cb : CB U) : List U :=
  (List.range cb.m_used_slots.toNat).map
    (fun (i : Nat) => cb.m_buffer ((cb.m_buffer_tail + (i : Int)) % cb.m_unit_count))

/-- State invariant maintained by every reachable state of a buffer built with
positive capacity: field bounds plus the relation tying `m_used_slots` to the
cursors (when `head < tail` the occupancy is forced; otherwise it is
`head - tail`, except a completely full buffer may have `head = tail`). -/
def Inv {U : Type} (cb : CB U) : Prop :=
  0 < cb.m_unit_count ∧
  0 ≤ cb.m_buffer_head ∧ cb.m_buffer_head ≤ cb.m_unit_count ∧
  0 ≤ cb.m_buffer_tail ∧ cb.m_buffer_tail ≤ cb.m_unit_count ∧
  0 ≤ cb.m_used_slots ∧ cb.m_used_slots ≤ cb.m_unit_count ∧
  (cb.m_buffer_head < cb.m_buffer_tail →
    cb.m_used_slots = cb.m_unit_count - cb.m_buffer_tail + cb.m_buffer_head) ∧
  (cb.m_buffer_tail ≤ cb.m_buffer_head →
    cb.m_used_slots = cb.m_buffer_head - cb.m_buffer_tail ∨
      (cb.m_buffer_head = cb.m_buffer_tail ∧ cb.m_used_slots = cb.m_unit_count))

instance {U : Type} (cb : CB U) : Decidable (Inv cb) := by
  unfold Inv; infer_instance

/-- States reachable from a freshly constructed buffer of positive capacity by
insert and extract calls (with nonnegative extraction counts, the only counts
the public contract admits). -/
inductive Reach {U : Type} : CB U → Prop where
  | init (unit_count : Int) (buf : Int → U) (hpos : 0 < unit_count) :
      Reach (mkCB unit_count buf)
  | step_insert {cb : CB U} (data : List U) (h : Reach cb) :
      Reach (insert_units cb data).2
  | step_extract {cb : CB U} (n : Int) (hn : 0 ≤ n) (h : Reach cb) :
      Reach (extract_units cb n).2.2

/-- Writing a list does not change storage cells outside the written range. -/
theorem writeList_out {U : Type} (ds : List U) (buf : Int → U) (p i : Int)
    (h : i < p ∨ p + (ds.length : Int) ≤ i) : writeList buf p ds i = buf i := by
  induction ds generalizing buf p with
  | nil => rfl
  | cons d t ih =>
    simp only [List.length_cons] at h
    have h1 : i < p + 1 ∨ (p + 1) + (t.length : Int) ≤ i := by push_cast at h ⊢; omega
    have h2 : i ≠ p := by push_cast at h; omega
    simp only [writeList]
    rw [ih _ (p + 1) h1]
    simp [h2]

/-- Writing a list stores element `j` of the list at cell `p + j`. -/
theorem writeList_in {U : Type} (ds : List U) (buf : Int → U) (p : Int) (j : Nat)
    (h : j < ds.length) : writeList buf p ds (p + (j : Int)) = ds.get ⟨j, h⟩ := by
  induction ds generalizing buf p j with
  | nil => simp at h
  | cons d t ih =>
    simp only [writeList]
    cases j with
    | zero =>
      rw [writeList_out t _ (p + 1) (p + ((0 : Nat) : Int)) (by push_cast; omega)]
      simp
    | succ k =>
      have hk : k < t.length := by simpa using h
      have hp : p + ((k + 1 : Nat) : Int) = (p + 1) + (k : Int) := by push_cast; ring
      rw [hp, ih _ (p + 1) k hk]
      rfl

/-- Reading `n` cells from `p` is the map of the storage over `p, p+1, …`. -/
theorem readList_eq_map {U : Type} (n : Nat) (buf : Int → U) (p : Int) :
    readList buf p n = (List.range n).map (fun (i : Nat) => buf (p + (i : Int))) := by
  induction n generalizing p with
  | zero => rfl
  | succ m ih =>
    rw [readList, ih (p + 1), List.range_succ_eq_map]
    simp only [List.map_cons, List.map_map]
    congr 1
    · simp
    · apply List.map_congr_left
      intro a _
      simp only [Function.comp_apply]
      congr 1
      push_cast
      ring

/-- The length of `contents` is the (clamped) occupancy. -/
theorem contents_length {U : Type} (cb : CB U) :
    (contents cb).length = cb.m_used_slots.toNat := by
  simp only [contents, List.length_map, List.length_range]

/-- `insert_units` preserves the state invariant. -/
theorem inv_insert {U : Type} (cb : CB U) (data : List U) (h : Inv cb) :
    Inv (insert_units cb data).2 := by
  obtain ⟨h1, h2, h3, h4, h5, h6, h7, h8, h9⟩ := h
  simp only [insert_units]
  split_ifs with e1 e2 e3 e4 e5 e6 <;>
    first
      | exact ⟨h1, h2, h3, h4, h5, h6, h7, h8, h9⟩
      | (simp only [Inv, List.length_drop]; omega)

/-- `extract_units` (with a nonnegative request) preserves the state
invariant. -/
theorem inv_extract {U : Type} (cb : CB U) (n : Int) (hn : 0 ≤ n) (h : Inv cb) :
    Inv (extract_units cb n).2.2 := by
  obtain ⟨h1, h2, h3, h4, h5, h6, h7, h8, h9⟩ := h
  simp only [extract_units]
  split_ifs with e1 e2 e3 e4 e5 <;>
    first
      | exact ⟨h1, h2, h3, h4, h5, h6, h7, h8, h9⟩
      | (simp only [Inv]; omega)

/-- An integer already in `[0, n)` is its own remainder. -/
theorem emod_self_of_lt (x n : Int) (h0 : 0 ≤ x) (h1 : x < n) : x % n = x :=
  Int.emod_eq_of_lt h0 h1

/-- An integer in `[n, 2n)` reduces modulo `n` by one subtraction. -/
theorem emod_sub_of_lt (x n : Int) (h0 : n ≤ x) (h1 : x < n + n) : x % n = x - n := by
  have hx : x = (x - n) + n * 1 := by ring
  calc x % n = ((x - n) + n * 1) % n := by rw [← hx]
    _ = (x - n) % n := by rw [Int.add_mul_emod_self_left]
    _ = x - n := Int.emod_eq_of_lt (by omega) (by omega)

/-- Generic shape of the insertion correctness argument: if a new storage
function agrees with the old one on the `u` occupied circular positions and
holds the list `D` on the `D.length` circular positions that follow them, then
reading `u + D.length` circular units from `tail` yields the old content
followed by `D`. -/
theorem contents_append_aux {U : Type} (cap t u : Int) (b b' : Int → U) (D : List U)
    (hu0 : 0 ≤ u)
    (hold : ∀ i : Nat, (i : Int) < u →
      b' ((t + (i : Int)) % cap) = b ((t + (i : Int)) % cap))
    (hnew : ∀ (j : Nat) (hj : j < D.length),
      b' ((t + u + (j : Int)) % cap) = D.get ⟨j, hj⟩) :
    (List.range (u + (D.length : Int)).toNat).map
        (fun (i : Nat) => b' ((t + (i : Int)) % cap)) =
      (List.range u.toNat).map (fun (i : Nat) => b ((t + (i : Int)) % cap)) ++ D := by
  apply List.ext_getElem
  · simp
    omega
  · intro i h1 h2
    simp only [List.getElem_map, List.getElem_range]
    by_cases hi : i < u.toNat
    · rw [List.getElem_append_left (by simpa using hi)]
      simp only [List.getElem_map, List.getElem_range]
      exact hold i (by omega)
    · rw [List.getElem_append_right (by simpa using hi)]
      simp only [List.length_map, List.length_range]
      have hlen : i < (u + (D.length : Int)).toNat := by
        simpa using h1
      have hj : i - u.toNat < D.length := by omega
      have harg : t + (i : Int) = t + u + ((i - u.toNat : Nat) : Int) := by
        omega
      rw [harg, hnew _ hj]
      simp

/-- Every reachable state satisfies the invariant. -/
theorem reach_inv {U : Type} {cb : CB U} (h : Reach cb) : Inv cb := by
  induction h with
  | init unit_count buf hpos =>
    refine ⟨hpos, ?_⟩
    simp [mkCB]
    omega
  | step_insert data _ ih => exact inv_insert _ data ih
  | step_extract n hn _ ih => exact inv_extract _ n hn ih

/-- The length of a `readList` read. -/
theorem readList_length {U : Type} (buf : Int → U) (p : Int) (n : Nat) :
    (readList buf p n).length = n := by
  rw [readList_eq_map]
  simp

/-- Taking a prefix of a mapped range is the map of the shorter range. -/
theorem map_range_take {α : Type} (f : Nat → α) (a b : Nat) (h : a ≤ b) :
    ((List.range b).map f).take a = (List.range a).map f := by
  rw [← List.map_take, List.take_range, Nat.min_eq_left h]

/-- Dropping a prefix of a mapped range shifts the index. -/
theorem map_range_drop {α : Type} (f : Nat → α) (a b : Nat) (h : a ≤ b) :
    ((List.range b).map f).drop a =
      (List.range (b - a)).map (fun (i : Nat) => f (a + i)) := by
  have hb : b = a + (b - a) := by omega
  rw [hb, List.range_add, List.map_append, List.drop_left' (by simp), List.map_map]
  simp [Function.comp]

/-- A mapped range over a sum splits into two mapped ranges. -/
theorem map_range_add_append {α : Type} (f : Nat → α) (a b : Nat) :
    (List.range (a + b)).map f =
      (List.range a).map f ++ (List.range b).map (fun (i : Nat) => f (a + i)) := by
  rw [List.range_add, List.map_append, List.map_map]
  simp [Function.comp]

/-- A successful `insert_units` appends the inserted units to the logical
content of the buffer. -/
theorem insert_contents {U : Type} (cb : CB U) (D : List U) (hinv : Inv cb)
    (hs : (insert_units cb D).1 = true) :
    contents (insert_units cb D).2 = contents cb ++ D := by
  obtain ⟨h1, h2, h3, h4, h5, h6, h7, h8, h9⟩ := hinv
  simp only [insert_units] at hs ⊢
  split_ifs at hs ⊢ with e1 e2 e3 e4 e5 e6
  · -- head < tail: contiguous free region below the tail
    have hu : cb.m_used_slots = cb.m_unit_count - cb.m_buffer_tail + cb.m_buffer_head :=
      h8 e3
    simp only [contents]
    apply contents_append_aux cb.m_unit_count cb.m_buffer_tail cb.m_used_slots
      cb.m_buffer _ D h6
    · intro i hi
      rcases lt_or_le (cb.m_buffer_tail + (i : Int)) cb.m_unit_count with hlt | hge
      · rw [emod_self_of_lt _ _ (by omega) hlt]
        exact writeList_out _ _ _ _ (by omega)
      · rw [emod_sub_of_lt _ _ hge (by omega)]
        exact writeList_out _ _ _ _ (by omega)
    · intro j hj
      have harg : (cb.m_buffer_tail + cb.m_used_slots + (j : Int)) % cb.m_unit_count =
          cb.m_buffer_head + (j : Int) := by
        rw [emod_sub_of_lt _ _ (by omega) (by omega)]
        omega
      rw [harg]
      exact writeList_in D cb.m_buffer cb.m_buffer_head j hj
  · -- head ≥ tail and the data fits before the end of storage
    rcases h9 (by omega) with hu | ⟨hht, hufull⟩
    · simp only [contents]
      apply contents_append_aux cb.m_unit_count cb.m_buffer_tail cb.m_used_slots
        cb.m_buffer _ D h6
      · intro i hi
        rw [emod_self_of_lt _ _ (by omega) (by omega)]
        exact writeList_out _ _ _ _ (by omega)
      · intro j hj
        have harg : (cb.m_buffer_tail + cb.m_used_slots + (j : Int)) % cb.m_unit_count =
            cb.m_buffer_head + (j : Int) := by
          rw [emod_self_of_lt _ _ (by omega) (by omega)]
          omega
        rw [harg]
        exact writeList_in D cb.m_buffer cb.m_buffer_head j hj
    · -- completely full buffer: only a zero-length insert reaches here
      have hD : D = [] := List.length_eq_zero.mp (by omega)
      subst hD
      simp [contents, writeList]
  · -- head ≥ tail, wrapped two-segment copy
    have hu : cb.m_used_slots = cb.m_buffer_head - cb.m_buffer_tail := by
      rcases h9 (by omega) with hu | ⟨hht, hufull⟩ <;> omega
    simp only [contents]
    apply contents_append_aux cb.m_unit_count cb.m_buffer_tail cb.m_used_slots
      cb.m_buffer _ D h6
    · intro i hi
      rw [emod_self_of_lt _ _ (by omega) (by omega)]
      calc writeList (writeList cb.m_buffer cb.m_buffer_head
              (D.take (cb.m_unit_count - cb.m_buffer_head).toNat)) 0
              (D.drop (cb.m_unit_count - cb.m_buffer_head).toNat)
              (cb.m_buffer_tail + (i : Int))
          = writeList cb.m_buffer cb.m_buffer_head
              (D.take (cb.m_unit_count - cb.m_buffer_head).toNat)
              (cb.m_buffer_tail + (i : Int)) :=
            writeList_out _ _ _ _ (by simp only [List.length_drop]; omega)
        _ = cb.m_buffer (cb.m_buffer_tail + (i : Int)) :=
            writeList_out _ _ _ _ (by simp only [List.length_take]; omega)
    · intro j hj
      by_cases hjl : (j : Int) < cb.m_unit_count - cb.m_buffer_head
      · -- first segment, up to the end of storage
        have harg : (cb.m_buffer_tail + cb.m_used_slots + (j : Int)) % cb.m_unit_count =
            cb.m_buffer_head + (j : Int) := by
          rw [emod_self_of_lt _ _ (by omega) (by omega)]
          omega
        rw [harg]
        have hjt : j < (D.take (cb.m_unit_count - cb.m_buffer_head).toNat).length := by
          simp only [List.length_take]
          omega
        calc writeList (writeList cb.m_buffer cb.m_buffer_head
                (D.take (cb.m_unit_count - cb.m_buffer_head).toNat)) 0
                (D.drop (cb.m_unit_count - cb.m_buffer_head).toNat)
                (cb.m_buffer_head + (j : Int))
            = writeList cb.m_buffer cb.m_buffer_head
                (D.take (cb.m_unit_count - cb.m_buffer_head).toNat)
                (cb.m_buffer_head + (j : Int)) :=
              writeList_out _ _ _ _ (by simp only [List.length_drop]; omega)
          _ = (D.take (cb.m_unit_count - cb.m_buffer_head).toNat).get ⟨j, hjt⟩ :=
              writeList_in _ _ _ j hjt
          _ = D.get ⟨j, hj⟩ := by
              simp only [List.get_eq_getElem, List.getElem_take]
      · -- second segment, wrapped to the start of storage
        have hjd : j - (cb.m_unit_count - cb.m_buffer_head).toNat <
            (D.drop (cb.m_unit_count - cb.m_buffer_head).toNat).length := by
          simp only [List.length_drop]
          omega
        have harg : (cb.m_buffer_tail + cb.m_used_slots + (j : Int)) % cb.m_unit_count =
            0 + ((j - (cb.m_unit_count - cb.m_buffer_head).toNat : Nat) : Int) := by
          rw [emod_sub_of_lt _ _ (by omega) (by omega)]
          omega
        rw [harg, writeList_in _ _ _ _ hjd]
        simp only [List.get_eq_getElem, List.getElem_drop]
        have hidx : (cb.m_unit_count - cb.m_buffer_head).toNat +
            (j - (cb.m_unit_count - cb.m_buffer_head).toNat) = j := by omega
        simp only [hidx]

/-- A successful `extract_units` returns the oldest `n` units of the logical
content and leaves the remaining content in the buffer. -/
theorem extract_contents {U : Type} (cb : CB U) (n : Int) (hn : 0 ≤ n) (hinv : Inv cb)
    (hs : (extract_units cb n).1 = true) :
    (extract_units cb n).2.1 = (contents cb).take n.toNat ∧
    contents (extract_units cb n).2.2 = (contents cb).drop n.toNat := by
  obtain ⟨h1, h2, h3, h4, h5, h6, h7, h8, h9⟩ := hinv
  simp only [extract_units] at hs ⊢
  split_ifs at hs ⊢ with e1 e2 e3 e4 e5
  · -- head < tail and the occupied run wraps: two-segment read
    have hu : cb.m_used_slots = cb.m_unit_count - cb.m_buffer_tail + cb.m_buffer_head :=
      h8 e3
    constructor
    · rw [readList_eq_map, readList_eq_map]
      simp only [contents]
      rw [map_range_take _ n.toNat cb.m_used_slots.toNat (by omega)]
      have hsplit : n.toNat = (cb.m_unit_count - cb.m_buffer_tail).toNat +
          (n - (cb.m_unit_count - cb.m_buffer_tail)).toNat := by omega
      rw [hsplit, map_range_add_append]
      congr 1
      · apply List.map_congr_left
        intro i hi
        rw [List.mem_range] at hi
        rw [emod_self_of_lt _ _ (by omega) (by omega)]
      · apply List.map_congr_left
        intro i hi
        rw [List.mem_range] at hi
        rw [emod_sub_of_lt _ _ (by omega) (by omega)]
        congr 1
        omega
    · simp only [contents]
      rw [map_range_drop _ n.toNat cb.m_used_slots.toNat (by omega)]
      have hsz : (cb.m_used_slots - n).toNat = cb.m_used_slots.toNat - n.toNat := by
        omega
      rw [hsz]
      apply List.map_congr_left
      intro i hi
      rw [List.mem_range] at hi
      rw [emod_self_of_lt _ _ (by omega) (by omega),
        emod_sub_of_lt _ _ (by omega) (by omega)]
      congr 1
      omega
  · -- head < tail, single read below the end of storage
    have hu : cb.m_used_slots = cb.m_unit_count - cb.m_buffer_tail + cb.m_buffer_head :=
      h8 e3
    constructor
    · rw [readList_eq_map]
      simp only [contents]
      rw [map_range_take _ n.toNat cb.m_used_slots.toNat (by omega)]
      apply List.map_congr_left
      intro i hi
      rw [List.mem_range] at hi
      rw [emod_self_of_lt _ _ (by omega) (by omega)]
    · simp only [contents]
      rw [map_range_drop _ n.toNat cb.m_used_slots.toNat (by omega)]
      have hsz : (cb.m_used_slots - n).toNat = cb.m_used_slots.toNat - n.toNat := by
        omega
      rw [hsz]
      apply List.map_congr_left
      intro i hi
      rw [List.mem_range] at hi
      have harg : cb.m_buffer_tail + n + (i : Int) =
          cb.m_buffer_tail + ((n.toNat + i : Nat) : Int) := by omega
      rw [harg]
  · -- head ≥ tail: contiguous occupied run
    rcases h9 (by omega) with hu | ⟨hht, hufull⟩
    · constructor
      · rw [readList_eq_map]
        simp only [contents]
        rw [map_range_take _ n.toNat cb.m_used_slots.toNat (by omega)]
        apply List.map_congr_left
        intro i hi
        rw [List.mem_range] at hi
        rw [emod_self_of_lt _ _ (by omega) (by omega)]
      · simp only [contents]
        rw [map_range_drop _ n.toNat cb.m_used_slots.toNat (by omega)]
        have hsz : (cb.m_used_slots - n).toNat = cb.m_used_slots.toNat - n.toNat := by
          omega
        rw [hsz]
        apply List.map_congr_left
        intro i hi
        rw [List.mem_range] at hi
        have harg : cb.m_buffer_tail + n + (i : Int) =
            cb.m_buffer_tail + ((n.toNat + i : Nat) : Int) := by omega
        rw [harg]
    · -- completely full buffer with head = tail: only a zero-unit extract succeeds
      have hn0 : n = 0 := by omega
      subst hn0
      constructor
      · simp [readList]
      · simp only [contents]
        simp

/-- A sequence of `extract_units` calls with the given counts, performed with
no interleaved inserts.  Returns the concatenated outputs and the final state
when every call succeeds, `none` as soon as one fails. -/
def extractRun {U : Type} : CB U → List Int → Option (List U × CB U)
  | cb, [] => some ([], cb)
  | cb, n :: ns =>
    match extract_units cb n with
    | (true, out, cb') =>
      match extractRun cb' ns with
      | some (outs, cb₂) => some (out ++ outs, cb₂)
      | none => none
    | (false, _, _) => none

/-- A successful run of extracts returns the prefix of the logical content of
the corresponding total length, and leaves the rest. -/
theorem extractRun_spec {U : Type} (ns : List Int) (cb : CB U) (outs : List U)
    (cb₂ : CB U) (hinv : Inv cb) (hns : ∀ n ∈ ns, 0 ≤ n)
    (hrun : extractRun cb ns = some (outs, cb₂)) :
    outs = (contents cb).take ((ns.map Int.toNat).sum) ∧
    contents cb₂ = (contents cb).drop ((ns.map Int.toNat).sum) ∧ Inv cb₂ := by
  induction ns generalizing cb outs with
  | nil =>
    simp only [extractRun, Option.some_inj, Prod.mk.injEq] at hrun
    obtain ⟨rfl, rfl⟩ := hrun
    exact ⟨by simp, by simp, hinv⟩
  | cons n ns ih =>
    have hn0 : 0 ≤ n := hns n (by simp)
    have hns' : ∀ m ∈ ns, 0 ≤ m := fun m hm => hns m (by simp [hm])
    simp only [extractRun] at hrun
    rcases hex : extract_units cb n with ⟨b, out, cb'⟩
    rw [hex] at hrun
    cases b with
    | false => simp at hrun
    | true =>
      simp only [] at hrun
      have hsucc : (extract_units cb n).1 = true := by rw [hex]
      have hc := extract_contents cb n hn0 hinv hsucc
      rw [hex] at hc
      dsimp only at hc
      have hinv' : Inv cb' := by
        have hie := inv_extract cb n hn0 hinv
        rw [hex] at hie
        exact hie
      rcases hrun2 : extractRun cb' ns with _ | ⟨outs', cbf⟩
      · rw [hrun2] at hrun
        simp at hrun
      · rw [hrun2] at hrun
        simp only [Option.some_inj, Prod.mk.injEq] at hrun
        obtain ⟨houts, hcbf⟩ := hrun
        subst houts
        subst hcbf
        obtain ⟨ih1, ih2, ih3⟩ := ih cb' outs' hinv' hns' hrun2
        refine ⟨?_, ?_, ih3⟩
        · rw [ih1, hc.2, hc.1]
          simp only [List.map_cons, List.sum_cons]
          rw [← List.take_add]
        · rw [ih2, hc.2]
          simp only [List.map_cons, List.sum_cons]
          rw [List.drop_drop]

/-- Writing a concatenation is two consecutive writes. -/
theorem writeList_append {U : Type} (X Y : List U) (b : Int → U) (p : Int) :
    writeList b p (X ++ Y) = writeList (writeList b p X) (p + (X.length : Int)) Y := by
  induction X generalizing b p with
  | nil => simp [writeList]
  | cons d t ih =>
    simp only [List.cons_append, List.length_cons]
    show writeList (fun i => if i = p then d else b i) (p + 1) (t ++ Y) =
      writeList (writeList (fun i => if i = p then d else b i) (p + 1) t)
        (p + ((t.length + 1 : Nat) : Int)) Y
    rw [ih]
    push_cast
    ring_nf

/-- Reading back a freshly written list returns that list. -/
theorem readList_writeList {U : Type} (L : List U) (b : Int → U) (p : Int) :
    readList (writeList b p L) p L.length = L := by
  rw [readList_eq_map]
  apply List.ext_getElem
  · simp
  · intro i h1 h2
    simp only [List.getElem_map, List.getElem_range]
    rw [writeList_in L b p i h2]
    simp

/-- Core correctness of `transfer` for a source whose cursors differ: the
destination receives the source's occupied content linearised from offset 0,
with `tail = 0` and `head = used = source.used`, and extracting that occupancy
from the destination returns the source's content in FIFO order. -/
theorem transfer_spec {U : Type} (dest source : CB U)
    (hinv : Inv source) (hpos : 0 < source.m_used_slots)
    (hne : source.m_buffer_head ≠ source.m_buffer_tail)
    (hcap : source.m_used_slots ≤ dest.m_unit_count) :
    (transfer dest source).m_buffer_tail = 0 ∧
    (transfer dest source).m_buffer_head = source.m_used_slots ∧
    used_space (transfer dest source) = source.m_used_slots ∧
    (extract_units (transfer dest source) source.m_used_slots).1 = true ∧
    (extract_units (transfer dest source) source.m_used_slots).2.1 = contents source := by
  obtain ⟨h1, h2, h3, h4, h5, h6, h7, h8, h9⟩ := hinv
  rcases lt_trichotomy source.m_buffer_head source.m_buffer_tail with hlt | heq | hgt
  · -- head < tail: two-segment copy
    have hu : source.m_used_slots =
        source.m_unit_count - source.m_buffer_tail + source.m_buffer_head := h8 hlt
    simp only [transfer]
    rw [if_pos hne, if_neg (show ¬source.m_buffer_head > source.m_buffer_tail by omega)]
    refine ⟨rfl, rfl, rfl, ?_, ?_⟩
    · simp only [extract_units]
      split_ifs with g1 g2 g3 g4 g5 <;> first | rfl | (exfalso; omega)
    · simp only [extract_units]
      split_ifs with g1 g2 g3 g4 g5
      · exfalso; omega
      · exfalso; omega
      · exfalso; omega
      · exfalso; omega
      · exfalso; omega
      · set L1 := readList source.m_buffer source.m_buffer_tail
          (source.m_unit_count - source.m_buffer_tail).toNat with hL1
        set L2 := readList source.m_buffer 0 source.m_buffer_head.toNat with hL2
        have hposeq : source.m_unit_count - source.m_buffer_tail =
            0 + (L1.length : Int) := by
          rw [hL1, readList_length]
          omega
        have h12 : writeList (writeList dest.m_buffer 0 L1)
            (source.m_unit_count - source.m_buffer_tail) L2 =
            writeList dest.m_buffer 0 (L1 ++ L2) := by
          rw [writeList_append, ← hposeq]
        rw [h12]
        have hlen : source.m_used_slots.toNat = (L1 ++ L2).length := by
          rw [List.length_append, hL1, hL2, readList_length, readList_length]
          omega
        rw [hlen, readList_writeList, hL1, hL2, readList_eq_map, readList_eq_map]
        simp only [contents]
        have hsplit : source.m_used_slots.toNat =
            (source.m_unit_count - source.m_buffer_tail).toNat +
              source.m_buffer_head.toNat := by omega
        rw [hsplit, map_range_add_append]
        congr 1
        · apply List.map_congr_left
          intro i hi
          rw [List.mem_range] at hi
          rw [emod_self_of_lt _ _ (by omega) (by omega)]
        · apply List.map_congr_left
          intro i hi
          rw [List.mem_range] at hi
          rw [emod_sub_of_lt _ _ (by omega) (by omega)]
          congr 1
          omega
  · exact absurd heq hne
  · -- head > tail: single linear copy
    have hu : source.m_used_slots = source.m_buffer_head - source.m_buffer_tail := by
      rcases h9 (by omega) with hu | ⟨hht, _⟩
      · exact hu
      · omega
    simp only [transfer]
    rw [if_pos hne, if_pos hgt]
    refine ⟨rfl, rfl, rfl, ?_, ?_⟩
    · simp only [extract_units]
      split_ifs with g1 g2 g3 g4 g5 <;> first | rfl | (exfalso; omega)
    · simp only [extract_units]
      split_ifs with g1 g2 g3 g4 g5
      · exfalso; omega
      · exfalso; omega
      · exfalso; omega
      · exfalso; omega
      · exfalso; omega
      · set L := readList source.m_buffer source.m_buffer_tail
          source.m_used_slots.toNat with hL
        have hlen : source.m_used_slots.toNat = L.length := by
          rw [hL, readList_length]
        rw [hlen, readList_writeList, hL, readList_eq_map]
        simp only [contents]
        apply List.map_congr_left
        intro i hi
        rw [List.mem_range] at hi
        rw [emod_self_of_lt _ _ (by omega) (by omega)]

/-- An arbitrary concrete initial storage used by the concrete test states. -/
def zb : Int → Int := fun _ => 0

/-- The state of the spec's concrete scenario on a capacity-10 buffer after
insert `[1,2,3]`, insert `[4,5,6,7,8]`, extract 5: `head = 8`, `tail = 5`,
`used = 3`, free space 7. -/
def specState : CB Int :=
  (extract_units (insert_units (insert_units (mkCB 10 zb) [1, 2, 3]).2
    [4, 5, 6, 7, 8]).2 5).2.2

/-- A reachable completely full capacity-3 buffer with `head = tail = 2` and
`used = 3`: insert `[1,2]`, extract 2, insert `[3,4]` (wrapping), insert
`[5]`. -/
def fullState : CB Int :=
  (insert_units (insert_units (extract_units
    (insert_units (mkCB 3 zb) [1, 2]).2 2).2.2 [3, 4]).2 [5]).2

/-- A capacity-3 buffer holding `[7, 8]` with `head = 2`, `tail = 0`. -/
def src78 : CB Int :=
  (insert_units (mkCB 3 zb) [7, 8]).2

/-- C1: the claim states that `insert_units` succeeds whenever `capacity > 0`
and `capacity - used ≥ count`, including a wrapping insert whose count exactly
equals the free space.  The code refutes it on the spec's own concrete
scenario: with capacity 10 and free space 7 (`head = 8`, `tail = 5`), the
wrapping insert of exactly 7 units is rejected by the off-by-one guard
`left_in_buffer + (m_buffer_tail - 1) < unit_count` and the state is
unchanged. -/
theorem claim_C1_insert_rejects_exact_fit_wrap :
    free_space specState = 7 ∧ 0 < specState.m_unit_count ∧
    (insert_units specState [9, 10, 11, 12, 13, 14, 15]).1 = false ∧
    used_space (insert_units specState [9, 10, 11, 12, 13, 14, 15]).2 = 3 := by
  decide

/-- C2: the claim states that `extract_units` succeeds whenever
`used ≥ count`, including a completely full buffer in which `head == tail`.
The code refutes it: in the reachable full state `fullState`
(`used = 3 = capacity`, `head = tail = 2`) the branch marked
"shouldn't happen here" is taken and every positive extraction is rejected. -/
theorem claim_C2_extract_fails_on_full_wrapped_buffer :
    used_space fullState = 3 ∧ fullState.m_used_slots = fullState.m_unit_count ∧
    fullState.m_buffer_head = fullState.m_buffer_tail ∧
    (extract_units fullState 1).1 = false ∧
    (extract_units fullState 3).1 = false := by
  decide

/-- C3: the claim states that `used_space()` returns 0 immediately after
`reset()`.  The code refutes it: `reset()` clears only the cursors, so after
inserting one unit into a capacity-2 buffer and calling `reset()`,
`used_space()` still returns the stale value 1. -/
theorem claim_C3_reset_leaves_stale_used :
    used_space (reset (insert_units (mkCB 2 zb) [7]).2) = 1 ∧
    (reset (insert_units (mkCB 2 zb) [7]).2).m_buffer_head = 0 ∧
    (reset (insert_units (mkCB 2 zb) [7]).2).m_buffer_tail = 0 := by
  decide

/-- C4: FIFO round-trip.  From any reachable state, if an insert of the
sequence `s` succeeds and a following run of extracts (with no interleaved
inserts) all succeed, the concatenated extracted data is the corresponding
prefix of "content occupied before the insert, followed by `s`" — the old
units first, in insertion order, then the units of `s` in their original
order, over arbitrarily many wrap-arounds. -/
theorem claim_C4_fifo_round_trip {U : Type} (cb : CB U) (s : List U) (ns : List Int)
    (outs : List U) (cb₂ : CB U) (hreach : Reach cb)
    (hins : (insert_units cb s).1 = true) (hns : ∀ n ∈ ns, 0 ≤ n)
    (hrun : extractRun (insert_units cb s).2 ns = some (outs, cb₂)) :
    outs = (contents cb ++ s).take ((ns.map Int.toNat).sum) := by
  have hinv := reach_inv hreach
  have hc := insert_contents cb s hinv hins
  obtain ⟨hout, _, _⟩ :=
    extractRun_spec ns (insert_units cb s).2 outs cb₂ (inv_insert cb s hinv) hns hrun
  rw [hout, hc]

/-- Witness for C4 on a concrete run: capacity 2, insert `[5, 6]`, extract 2
yields back `[5, 6]`. -/
theorem claim_C4_fifo_round_trip_witness :
    ([5, 6] : List Int) =
      (contents (mkCB 2 zb) ++ [5, 6]).take (([(2 : Int)].map Int.toNat).sum) :=
  claim_C4_fifo_round_trip (mkCB 2 zb) [5, 6] [2] [5, 6]
    ⟨2, 2, 2, 0, writeList zb 0 [5, 6]⟩
    (Reach.init 2 zb (by decide)) (by decide) (by decide) rfl

/-- C5 counterexample: the claim as stated is false.  `fullState` is a
non-empty source (occupancy `n = 3 > 0`) and `mkCB 4 zb` a destination of
capacity `4 ≥ 3`, yet after copy-assignment (`transfer`) the destination is
untouched — its `used_space()` is 0, not 3 — because the full buffer has
`head == tail` and `transfer` treats that as empty. -/
theorem claim_C5_full_source_not_transferred :
    used_space fullState = 3 ∧ (3 : Int) ≤ (mkCB 4 zb).m_unit_count ∧
    used_space (transfer (mkCB 4 zb) fullState) = 0 ∧
    (transfer (mkCB 4 zb) fullState).m_buffer_head = 0 := by
  decide

/-- C5 (amended): for every source satisfying the invariant with occupancy
`n > 0` and `head ≠ tail` (which excludes the completely full wrapped state),
and every destination of capacity `≥ n`, after `transfer` (the common
implementation of copy construction and copy-assignment) the destination has
`tail = 0`, `head = n`, `used_space() = n`, and extracting `n` units yields
the source's occupied content in FIFO order. -/
theorem claim_C5_transfer_copies_content {U : Type} (dest source : CB U)
    (hinv : Inv source) (hpos : 0 < source.m_used_slots)
    (hne : source.m_buffer_head ≠ source.m_buffer_tail)
    (hcap : source.m_used_slots ≤ dest.m_unit_count) :
    (transfer dest source).m_buffer_tail = 0 ∧
    (transfer dest source).m_buffer_head = source.m_used_slots ∧
    used_space (transfer dest source) = source.m_used_slots ∧
    (extract_units (transfer dest source) source.m_used_slots).1 = true ∧
    (extract_units (transfer dest source) source.m_used_slots).2.1 =
      contents source :=
  transfer_spec dest source hinv hpos hne hcap

/-- Witness for the amended C5: copying the buffer holding `[7, 8]` into a
capacity-4 destination. -/
theorem claim_C5_transfer_copies_content_witness :
    (transfer (mkCB 4 zb) src78).m_buffer_tail = 0 ∧
    (transfer (mkCB 4 zb) src78).m_buffer_head = src78.m_used_slots ∧
    used_space (transfer (mkCB 4 zb) src78) = src78.m_used_slots ∧
    (extract_units (transfer (mkCB 4 zb) src78) src78.m_used_slots).1 = true ∧
    (extract_units (transfer (mkCB 4 zb) src78) src78.m_used_slots).2.1 =
      contents src78 :=
  claim_C5_transfer_copies_content (mkCB 4 zb) src78
    (by decide) (by decide) (by decide) (by decide)

/-- C6 counterexample: the claim `head < capacity` in every reachable state is
false — inserting one unit into a fresh capacity-1 buffer leaves
`head = 1 = capacity`. -/
theorem claim_C6_cursor_reaches_capacity :
    Reach (insert_units (mkCB 1 zb) [42]).2 ∧
    (insert_units (mkCB 1 zb) [42]).2.m_buffer_head =
      (insert_units (mkCB 1 zb) [42]).2.m_unit_count ∧
    ¬ (insert_units (mkCB 1 zb) [42]).2.m_buffer_head <
      (insert_units (mkCB 1 zb) [42]).2.m_unit_count :=
  ⟨Reach.step_insert [42] (Reach.init 1 zb (by decide)), by decide, by decide⟩

/-- C6 (amended): in every state reachable from a freshly constructed buffer
of positive capacity by `insert_units` / `extract_units` calls,
`0 ≤ head ≤ capacity` and `0 ≤ tail ≤ capacity` (the cursors can equal
`capacity`, so the strict bound of the original claim does not hold). -/
theorem claim_C6_cursor_bounds {U : Type} (cb : CB U) (h : Reach cb) :
    0 ≤ cb.m_buffer_head ∧ cb.m_buffer_head ≤ cb.m_unit_count ∧
    0 ≤ cb.m_buffer_tail ∧ cb.m_buffer_tail ≤ cb.m_unit_count := by
  obtain ⟨_, h2, h3, h4, h5, _, _, _, _⟩ := reach_inv h
  exact ⟨h2, h3, h4, h5⟩

/-- Witness for the amended C6 at a freshly constructed capacity-1 buffer. -/
theorem claim_C6_cursor_bounds_witness :
    0 ≤ (mkCB 1 zb).m_buffer_head ∧
    (mkCB 1 zb).m_buffer_head ≤ (mkCB 1 zb).m_unit_count ∧
    0 ≤ (mkCB 1 zb).m_buffer_tail ∧
    (mkCB 1 zb).m_buffer_tail ≤ (mkCB 1 zb).m_unit_count :=
  claim_C6_cursor_bounds (mkCB 1 zb) (Reach.init 1 zb (by decide))

/-- C7: failure atomicity.  Whenever `insert_units` or `extract_units` returns
`false` — on any of its rejection paths — the buffer state (head, tail, used
count and storage) is exactly what it was before the call. -/
theorem claim_C7_failure_atomicity {U : Type} (cb : CB U) (data : List U) (n : Int) :
    ((insert_units cb data).1 = false → (insert_units cb data).2 = cb) ∧
    ((extract_units cb n).1 = false → (extract_units cb n).2.2 = cb) := by
  constructor
  · intro h
    simp only [insert_units] at h ⊢
    split_ifs at h ⊢ <;> rfl
  · intro h
    simp only [extract_units] at h ⊢
    split_ifs at h ⊢ <;> rfl

/-- Witness for C7 on a capacity-0 buffer, where both operations fail. -/
theorem claim_C7_failure_atomicity_witness :
    (insert_units (mkCB 0 zb) [1]).2 = mkCB 0 zb ∧
    (extract_units (mkCB 0 zb) 1).2.2 = mkCB 0 zb :=
  ⟨(claim_C7_failure_atomicity (mkCB 0 zb) [1] 1).1 rfl,
   (claim_C7_failure_atomicity (mkCB 0 zb) [1] 1).2 rfl⟩

/-- C8: frame conditions.  `insert_units` never changes `tail` and
`extract_units` never changes `head` or the stored content, whether the call
succeeds or fails. -/
theorem claim_C8_frame_conditions {U : Type} (cb : CB U) (data : List U) (n : Int) :
    (insert_units cb data).2.m_buffer_tail = cb.m_buffer_tail ∧
    (extract_units cb n).2.2.m_buffer_head = cb.m_buffer_head ∧
    (extract_units cb n).2.2.m_buffer = cb.m_buffer := by
  refine ⟨?_, ?_, ?_⟩
  · simp only [insert_units]
    split_ifs <;> rfl
  · simp only [extract_units]
    split_ifs <;> rfl
  · simp only [extract_units]
    split_ifs <;> rfl

/-- C9: when the source's `head` equals its `tail` — an empty source, or a
completely full one — `transfer` (used by copy construction and
copy-assignment) leaves the destination completely unchanged. -/
theorem claim_C9_transfer_noop_when_cursors_equal {U : Type} (dest source : CB U)
    (h : source.m_buffer_head = source.m_buffer_tail) :
    transfer dest source = dest := by
  simp only [transfer]
  rw [if_neg (fun hne => hne h)]

/-- Witness for C9: assigning a fresh empty capacity-3 source to a capacity-2
destination leaves the destination untouched. -/
theorem claim_C9_transfer_noop_when_cursors_equal_witness :
    transfer (mkCB 2 zb) (mkCB 3 zb) = mkCB 2 zb :=
  claim_C9_transfer_noop_when_cursors_equal (mkCB 2 zb) (mkCB 3 zb) rfl

/-- C10: the claim states that the pointer returned by `get_buffer_head`
addresses element index `head` of the storage for every unit type.  The code
refutes it: the source adds `offset = m_buffer_head * m_unit_size` to a
`Unit*`, so the addressed element index is `head * sizeof(Unit)`.  With a
2-byte unit, capacity 4 and `head = 3` the addressed index is 6 — not 3, and
outside the 4-element storage.  (Only `sizeof(Unit) = 1` matches the claim.) -/
theorem claim_C10_buffer_index_double_scaled :
    get_buffer_head_index 3 2 = 6 ∧ get_buffer_head_index 3 2 ≠ 3 ∧
    ¬ get_buffer_head_index 3 2 < 4 ∧ get_buffer_head_index 3 1 = 3 := by
  decide

end CircularBufferModel
